import Mathlib

/-!
Verification of the rpjs discrete-time FRP combinator library (src/frp.js).

A signal function (SF) in the source is a Javascript closure taking a time
step `dt` and an input value and returning an output value, while mutating
private state captured in the closure.  We embed an SF as a Mealy-style
state machine: a state type, an initial state, and a pure step function
returning the output together with the updated state.  Javascript numbers
are modelled as exact rationals.
-/

namespace Rpjs

/-- Javascript values as far as the drive loop `react` observes them:
booleans, numbers and `undefined`.  The loop only ever consults
truthiness (generator path) and strict equality with `false`
(the lodash `forEach` early-exit rule on the array path). -/
inductive JSValue : Type where
  | bool (b : Bool)
  | num (q : ℚ)
  | undef
  deriving DecidableEq, Repr

/-- Javascript truthiness for the values of `JSValue`:
`false`, `0` and `undefined` are falsy, everything else is truthy. -/
def jsTruthy : JSValue → Bool
  | JSValue.bool b => b
  | JSValue.num q => decide (q ≠ 0)
  | JSValue.undef => false

/-- Strict equality with the boolean `false`, the condition under which
lodash `forEach` exits iteration early when returned from its callback. -/
def isFalse : JSValue → Bool
  | JSValue.bool false => true
  | _ => false

/-- A signal function: private state `σ`, initial state `s0`, and the
step `step st dt value = (output, new state)`.  This models a stateful JS
closure `function (dt, value) { ... }` by explicit state passing. -/
structure SF (V W : Type) : Type 1 where
  σ : Type
  s0 : σ
  step : σ → ℚ → V → W × σ

/-- Run a raw step function over a list of `(dt, value)` inputs, returning
the final state. -/
def runSt {σ V W : Type} (step : σ → ℚ → V → W × σ) : σ → List (ℚ × V) → σ
  | s, [] => s
  | s, (dt, v) :: l => runSt step (step s dt v).2 l

/-- Run a raw step function over a list of `(dt, value)` inputs, returning
the list of outputs, one per input, in order. -/
def runTr {σ V W : Type} (step : σ → ℚ → V → W × σ) : σ → List (ℚ × V) → List W
  | _, [] => []
  | s, (dt, v) :: l => (step s dt v).1 :: runTr step (step s dt v).2 l

/-- The output trace of a signal function on a list of inputs. -/
def SF.trace {V W : Type} (m : SF V W) (l : List (ℚ × V)) : List W :=
  runTr m.step m.s0 l

/-- The state of a signal function after consuming a list of inputs. -/
def SF.state {V W : Type} (m : SF V W) (l : List (ℚ × V)) : m.σ :=
  runSt m.step m.s0 l

/-- Source `constant : _.constant` — an SF that ignores `dt` and the input
and always returns `c`.  No state. -/
def constantSF {V W : Type} (c : W) : SF V W :=
  ⟨Unit, (), fun s _ _ => (c, s)⟩

/-- Source `lift : function (f) { return function (dt, value) { return f(value); }; }`
— lift a pure function to a stateless SF. -/
def liftSF {V W : Type} (f : V → W) : SF V W :=
  ⟨Unit, (), fun s _ v => (f v, s)⟩

/-- Binary instance of source `compose`: thread the same `dt` through the
first SF, feed its output to the second.  The source iterates its argument
list with `_.forEach(sfs, function (sf) { value = sf(dt, value); })`;
nesting this binary composition performs the identical threading. -/
def compose2 {V W X : Type} (f : SF V W) (g : SF W X) : SF V X :=
  ⟨f.σ × g.σ, (f.s0, g.s0), fun s dt v =>
    let r1 := f.step s.1 dt v
    let r2 := g.step s.2 dt r1.1
    (r2.1, (r1.2, r2.2))⟩

/-- The behavior of source `compose` applied to an empty argument list:
the `forEach` loop runs zero times and the input value is returned
unchanged. -/
def idSF {V : Type} : SF V V :=
  ⟨Unit, (), fun s _ v => (v, s)⟩

/-- Source `compose` over its (variadic) argument list: the `forEach` loop
threads the value through the signal functions in order, all with the same
`dt`.  Modelled by structural recursion with `compose2`. -/
def composeN {V : Type} : List (SF V V) → SF V V
  | [] => idSF
  | m :: l => compose2 m (composeN l)

/-- The parallel part of source `fanout`:
`_.map(sfs, function (sf) { return sf(dt, value); })` — every child SF is
stepped exactly once with the same `(dt, value)` and the outputs are
collected in order. -/
def parSF {V W : Type} : List (SF V W) → SF V (List W)
  | [] => ⟨Unit, (), fun s _ _ => ([], s)⟩
  | m :: l =>
    let p := parSF l
    ⟨m.σ × p.σ, (m.s0, p.s0), fun s dt v =>
      let r := m.step s.1 dt v
      let rs := p.step s.2 dt v
      (r.1 :: rs.1, (r.2, rs.2))⟩

/-- Source `fanout : f.apply(f, _.map(sfs, ...))` — step every child SF
with the same `(dt, value)`, then apply the combiner `f` to the list of
their outputs (the N positional arguments of the JS call). -/
def fanout {V W X : Type} (f : List W → X) (sfs : List (SF V W)) : SF V X :=
  let p := parSF sfs
  ⟨p.σ, p.s0, fun s dt v =>
    let r := p.step s dt v
    (f r.1, r.2)⟩

/-- Source `feedback(initValue, sf)`:
`function (dt) { initValue = sf(dt, initValue); return initValue; }` —
the returned SF ignores its external input, applies the inner SF to the
stored value, stores the result and returns it. -/
def feedback {U V : Type} (x0 : V) (sf : SF V V) : SF U V :=
  ⟨V × sf.σ, (x0, sf.s0), fun s dt _ =>
    let r := sf.step s.2 dt s.1
    (r.1, (r.1, r.2))⟩

/-- Source `dSwitch(sf, predicate, makeSF)`.  State: the pair of the inner
SF state and the stored replacement, `switchedSF`, initially absent (in JS
an uninitialized variable; the `if (switchedSF)` test checks it, and a
stored function closure is always truthy, hence `Option`).  The replacement
closures built by `makeSF` are modelled by a state type `τ` with a step
function `mkStep` fixed at construction, `mkInit` giving the state that
`makeSF value` builds. -/
def dSwitch {V τ : Type} (sf : SF V V) (pred : V → Bool)
    (mkInit : V → τ) (mkStep : τ → ℚ → V → V × τ) : SF V V :=
  ⟨sf.σ × Option τ, (sf.s0, none), fun s dt v =>
    match s.2 with
    | some t =>
      let r := mkStep t dt v
      (r.1, (s.1, some r.2))
    | none =>
      let r := sf.step s.1 dt v
      if pred r.1 then (r.1, (r.2, some (mkInit r.1)))
      else (r.1, (r.2, none))⟩

/-- One step of `dSwitch` with the Javascript exception behavior made
explicit: the inner SF, the predicate and the constructor may raise.  The
source wraps nothing in try/catch, so a raise aborts the step mid-way;
every mutation performed before the raise persists (the inner SF state),
and `switchedSF` is assigned only from a successful `makeSF` return.  The
step result is the raised error or the returned value, next to the state
as left by the call. -/
def dSwitchStepE {V σ₁ τ ε : Type} (sfStep : σ₁ → ℚ → V → Except ε V × σ₁)
    (pred : V → Except ε Bool) (mkInit : V → Except ε τ)
    (mkStep : τ → ℚ → V → Except ε V × τ)
    (s : σ₁ × Option τ) (dt : ℚ) (v : V) : Except ε V × (σ₁ × Option τ) :=
  match s.2 with
  | some t =>
    match mkStep t dt v with
    | (Except.error e, t2) => (Except.error e, (s.1, some t2))
    | (Except.ok y, t2) => (Except.ok y, (s.1, some t2))
  | none =>
    match sfStep s.1 dt v with
    | (Except.error e, s1) => (Except.error e, (s1, none))
    | (Except.ok y, s1) =>
      match pred y with
      | Except.error e => (Except.error e, (s1, none))
      | Except.ok true =>
        match mkInit y with
        | Except.error e => (Except.error e, (s1, none))
        | Except.ok t => (Except.ok y, (s1, some t))
      | Except.ok false => (Except.ok y, (s1, none))

/-! ### integral -/

/-- The dynamically typed numeric values `integral` works on: a scalar
number or an array of numbers. -/
inductive JSNum : Type where
  | num (q : ℚ)
  | arr (l : List ℚ)
  deriving DecidableEq, Repr

/-- Javascript truthiness on `JSNum`: `0` is falsy, every other number and
every array (empty included) is truthy. -/
def jsNumTruthy : JSNum → Bool
  | JSNum.num q => decide (q ≠ 0)
  | JSNum.arr _ => true

/-- Source `var accum = c || 0` in `integral(c)`: an omitted or falsy
integration constant defaults to the scalar `0`. -/
def integralInit (c : Option JSNum) : JSNum :=
  match c with
  | none => JSNum.num 0
  | some v => if jsNumTruthy v then v else JSNum.num 0

/-- Source `accum[i] || 0`: index `i` of the accumulator, where indexing a
scalar number yields `undefined` and any absent or falsy slot coerces
to `0`. -/
def slot (a : JSNum) (i : ℕ) : ℚ :=
  match a with
  | JSNum.num _ => 0
  | JSNum.arr l => l.getD i 0

/-- A map that also passes the element index to the function, as lodash
`_.map(value, function (v, i) { ... })` does; `i` is the index of the head
of the remaining list. -/
def mapI {α β : Type} (f : ℕ → α → β) : ℕ → List α → List β
  | _, [] => []
  | i, x :: xs => f i x :: mapI f (i + 1) xs

/-- One call of the SF returned by `integral`: on an array input the new
accumulator is `_.map(value, function (v, i) { return (accum[i] || 0) + (dt * v); })`;
on a scalar input it is `accum += dt * value`.  The scalar branch applied
to an array accumulator performs a Javascript string coercion and yields a
non-numeric value; that escape from the numeric domain is modelled
as `none`. -/
def integralStep (accum : JSNum) (dt : ℚ) (value : JSNum) : Option JSNum :=
  match value with
  | JSNum.arr l => some (JSNum.arr (mapI (fun i v => slot accum i + dt * v) 0 l))
  | JSNum.num x =>
    match accum with
    | JSNum.num a => some (JSNum.num (a + dt * x))
    | JSNum.arr _ => none

/-- Iterate `integralStep` over a list of `(dt, value)` calls, returning
the final accumulator; the source returns the freshly updated `accum` from
each call, so this is also the return value of the last call. -/
def runIntegral (accum : JSNum) : List (ℚ × JSNum) → Option JSNum
  | [] => some accum
  | (dt, v) :: l =>
    match integralStep accum dt v with
    | none => none
    | some a => runIntegral a l

/-- The list length of an array-valued `JSNum`. -/
def jsNumLen : JSNum → Option ℕ
  | JSNum.num _ => none
  | JSNum.arr l => some l.length

/-! ### react -/

/-- The array branch of source `react`:
`_.forEach(input, function (step) { return sf(step.dt, step.value); });`.
The callback returns the SF result to lodash `forEach`, which exits the
iteration early exactly when the callback returns the boolean `false`
(strict equality; other falsy values do not stop it).  Returns the list of
results of the performed invocations, in order. -/
def reactArrAux {σ V : Type} (step : σ → ℚ → V → JSValue × σ) :
    σ → List (ℚ × V) → List JSValue
  | _, [] => []
  | s, (dt, v) :: l =>
    let r := step s dt v
    if isFalse r.1 then [r.1] else r.1 :: reactArrAux step r.2 l

/-- Source `react(sf, input)` with an array input: the trace of root SF
invocations performed by the `forEach` drive loop. -/
def reactArr {V : Type} (sf : SF V JSValue) (input : List (ℚ × V)) : List JSValue :=
  reactArrAux sf.step sf.s0 input

/-- The generator branch of source `react`:
`while (cont) { var step = input(); cont = sf(step.dt, step.value); }`.
The generator is modelled by the sequence of its call results, `gen n`
being what the `n`-th call yields.  The loop is run on explicit fuel:
`some k` means the loop stopped after exactly `k` invocations of the root
SF (the `k`-th result being the first falsy one), `none` that it was still
running when the fuel ran out. -/
def reactGenAux {σ V : Type} (step : σ → ℚ → V → JSValue × σ) (gen : ℕ → ℚ × V) :
    σ → ℕ → ℕ → Option ℕ
  | _, _, 0 => none
  | s, n, fuel + 1 =>
    let p := gen n
    let r := step s p.1 p.2
    if jsTruthy r.1 then reactGenAux step gen r.2 (n + 1) fuel else some (n + 1)

/-- Source `react(sf, input)` with a generator input. -/
def reactGen {V : Type} (sf : SF V JSValue) (gen : ℕ → ℚ × V) (fuel : ℕ) : Option ℕ :=
  reactGenAux sf.step gen sf.s0 0 fuel

/-- Source `input = input || _.constant({ dt: 0.1 });` — the default
generator yields `dt = 0.1` and an absent (hence `undefined`) value on
every call. -/
def defaultGen : ℕ → ℚ × JSValue :=
  fun _ => (1 / 10, JSValue.undef)

/-- Modelled from the spec, for comparison with the source `react`:
the generator path of the claimed three-argument form
`react(sf, input, output)`, in which each step result is passed to the
`output` callback and the loop continues while `output` returns true. -/
def reactGenSpecAux {σ V : Type} (step : σ → ℚ → V → JSValue × σ)
    (gen : ℕ → ℚ × V) (output : JSValue → Bool) :
    σ → ℕ → ℕ → Option ℕ
  | _, _, 0 => none
  | s, n, fuel + 1 =>
    let p := gen n
    let r := step s p.1 p.2
    if output r.1 then reactGenSpecAux step gen output r.2 (n + 1) fuel
    else some (n + 1)

/-- The spec-described output-callback generator loop, started from the
initial state of the root SF. -/
def reactGenSpec {V : Type} (sf : SF V JSValue) (gen : ℕ → ℚ × V)
    (output : JSValue → Bool) (fuel : ℕ) : Option ℕ :=
  reactGenSpecAux sf.step gen output sf.s0 0 fuel

/-! ### Generic lemmas about machine runs -/

theorem runTr_length {σ V W : Type} (step : σ → ℚ → V → W × σ) :
    ∀ (s : σ) (l : List (ℚ × V)), (runTr step s l).length = l.length := by
  intro s l
  induction l generalizing s with
  | nil => rfl
  | cons p l ih => cases p; simp [runTr, ih]

theorem runTr_append {σ V W : Type} (step : σ → ℚ → V → W × σ) :
    ∀ (s : σ) (l l' : List (ℚ × V)),
      runTr step s (l ++ l') = runTr step s l ++ runTr step (runSt step s l) l' := by
  intro s l l'
  induction l generalizing s with
  | nil => simp [runTr, runSt]
  | cons p l ih => cases p; simp [runTr, runSt, ih]

theorem mapI_length {α β : Type} (f : ℕ → α → β) :
    ∀ (j : ℕ) (l : List α), (mapI f j l).length = l.length := by
  intro j l
  induction l generalizing j with
  | nil => rfl
  | cons x xs ih => simp [mapI, ih]

theorem mapI_getD {α : Type} (f : ℕ → α → α) (d : α) :
    ∀ (j : ℕ) (l : List α) (i : ℕ), i < l.length →
      (mapI f j l).getD i d = f (j + i) (l.getD i d) := by
  intro j l
  induction l generalizing j with
  | nil => intro i h; simp at h
  | cons x xs ih =>
    intro i h
    cases i with
    | zero => simp [mapI, List.getD]
    | succ i =>
      have hi : i < xs.length := by simpa using h
      have := ih (j + 1) i hi
      simp only [mapI, List.getD_cons_succ]
      rw [this, Nat.add_assoc, Nat.add_comm 1 i]

theorem mapI_congr {α β : Type} {f g : ℕ → α → β} :
    ∀ (j : ℕ) (l : List α) (d : α),
      (∀ i, i < l.length → f (j + i) (l.getD i d) = g (j + i) (l.getD i d)) →
      mapI f j l = mapI g j l := by
  intro j l
  induction l generalizing j with
  | nil => intro d _; rfl
  | cons x xs ih =>
    intro d h
    have h0 := h 0 (by simp)
    simp only [List.getD_cons_zero, Nat.add_zero] at h0
    simp only [mapI, h0]
    refine congrArg _ (ih (j + 1) d ?_)
    intro i hi
    have := h (i + 1) (by simpa using Nat.succ_lt_succ hi)
    simpa [Nat.add_assoc, Nat.add_comm 1 i] using this

theorem integralInit_some (a : JSNum) : integralInit (some a) = a := by
  cases a with
  | num q =>
    by_cases h : q = 0 <;> simp [integralInit, jsNumTruthy, h]
  | arr l => simp [integralInit, jsNumTruthy]

theorem runIntegral_scalar (dt : ℚ) (x : ℚ) :
    ∀ (N : ℕ) (s : ℚ),
      runIntegral (JSNum.num s) (List.replicate N (dt, JSNum.num x))
        = some (JSNum.num (s + N * dt * x)) := by
  intro N
  induction N with
  | zero => intro s; simp [runIntegral]
  | succ N ih =>
    intro s
    simp only [List.replicate_succ, runIntegral, integralStep]
    rw [ih (s + dt * x)]
    push_cast
    ring_nf

theorem list_eq_of_getD {α : Type} {l₁ l₂ : List α} (d : α)
    (hlen : l₁.length = l₂.length)
    (h : ∀ i, i < l₁.length → l₁.getD i d = l₂.getD i d) : l₁ = l₂ := by
  refine List.ext_getElem hlen ?_
  intro i h1 h2
  have := h i h1
  rwa [List.getD_eq_getElem _ _ h1, List.getD_eq_getElem _ _ h2] at this

theorem runIntegral_vector (dt : ℚ) (l : List ℚ) :
    ∀ (N : ℕ) (a : List ℚ), a.length = l.length →
      runIntegral (JSNum.arr a) (List.replicate N (dt, JSNum.arr l))
        = some (JSNum.arr (mapI (fun i v => a.getD i 0 + N * dt * v) 0 l)) := by
  intro N
  induction N with
  | zero =>
    intro a ha
    simp only [List.replicate, runIntegral, Nat.cast_zero, zero_mul]
    refine congrArg _ (congrArg _ ?_)
    refine (list_eq_of_getD 0 ?_ ?_).symm
    · rw [mapI_length]; exact ha.symm
    · intro i hi
      rw [mapI_length] at hi
      rw [mapI_getD _ _ 0 l i hi]
      simp
  | succ N ih =>
    intro a ha
    simp only [List.replicate_succ, runIntegral, integralStep, slot]
    rw [ih (mapI (fun i v => a.getD i 0 + dt * v) 0 l) (by rw [mapI_length])]
    refine congrArg _ (congrArg _ ?_)
    refine mapI_congr 0 l 0 ?_
    intro i hi
    simp only [Nat.zero_add]
    rw [mapI_getD _ _ 0 l i hi]
    simp only [Nat.zero_add]
    push_cast
    ring

/-- C4: for every seed, constant input value, step size `dt` and `N ≥ 1`,
the SF returned by `integral(seed)` returns `seed + N*dt*v` after `N`
calls — elementwise for vector inputs, with missing accumulator slots
(a scalar seed included) treated as `0` — and each call returns the
post-update accumulator, as the formula holding at every `N ≥ 1`
(`N = 1` giving `seed + dt*v`, not `seed`) shows. -/
theorem integral_const_input (dt : ℚ) (N : ℕ) (hN : 1 ≤ N) :
    (∀ s x : ℚ,
      runIntegral (integralInit (some (JSNum.num s))) (List.replicate N (dt, JSNum.num x))
        = some (JSNum.num (s + N * dt * x)))
    ∧ ∀ (seed : JSNum) (l : List ℚ),
        runIntegral (integralInit (some seed)) (List.replicate N (dt, JSNum.arr l))
          = some (JSNum.arr (mapI (fun i v => slot seed i + N * dt * v) 0 l)) := by
  constructor
  · intro s x
    rw [integralInit_some]
    exact runIntegral_scalar dt x N s
  · intro seed l
    rw [integralInit_some]
    obtain ⟨M, rfl⟩ : ∃ M, N = M + 1 := ⟨N - 1, by omega⟩
    simp only [List.replicate_succ, runIntegral, integralStep]
    rw [runIntegral_vector dt l M _ (by rw [mapI_length])]
    refine congrArg _ (congrArg _ ?_)
    refine mapI_congr 0 l 0 ?_
    intro i hi
    simp only [Nat.zero_add]
    rw [mapI_getD _ _ 0 l i hi]
    simp only [Nat.zero_add]
    push_cast
    ring

/-- Witness for C4: two scalar steps `3 + 2*1*5 = 13`, and two vector
steps from the seed `[1]` over the input `[2, 4]` giving `[5, 8]` (the
missing seed slot restarts at `0`). -/
theorem integral_const_input_w :
    runIntegral (integralInit (some (JSNum.num 3))) (List.replicate 2 ((1 : ℚ), JSNum.num 5))
      = some (JSNum.num 13)
    ∧ runIntegral (integralInit (some (JSNum.arr [1]))) (List.replicate 2 ((1 : ℚ), JSNum.arr [2, 4]))
      = some (JSNum.arr [5, 8]) := by
  have h := integral_const_input (1 : ℚ) 2 (by norm_num)
  constructor
  · have := h.1 3 5
    norm_num at this
    convert this using 3
  · have := h.2 (JSNum.arr [1]) [2, 4]
    norm_num at this
    convert this using 3
    simp [mapI, slot, List.getD]
    norm_num

/-- C10: one array-input call always leaves the accumulator an array of
exactly the input length; and accumulated entries beyond a shorter later
input are discarded, so on a following longer input those positions
restart from `0`: after the calls `(dt1, l1)` then `(dt2, l2)`, every
slot at an index `i ≥ l1.length` holds `dt2 * l2[i]` alone, whatever the
starting accumulator held there. -/
theorem integral_accum_length (accum : JSNum) (dt : ℚ) (l : List ℚ) :
    ((integralStep accum dt (JSNum.arr l)).bind jsNumLen = some l.length)
    ∧ ∀ (dt2 : ℚ) (l2 : List ℚ) (i : ℕ), l.length ≤ i →
        (runIntegral accum [(dt, JSNum.arr l), (dt2, JSNum.arr l2)]).map (fun r => slot r i)
          = some (dt2 * l2.getD i 0) := by
  constructor
  · simp [integralStep, jsNumLen, mapI_length]
  · intro dt2 l2 i hi
    simp only [runIntegral, integralStep, Option.map_some']
    refine congrArg _ ?_
    simp only [slot]
    by_cases h2 : i < l2.length
    · rw [mapI_getD _ _ 0 l2 i h2]
      simp only [Nat.zero_add, slot]
      rw [List.getD_eq_default]
      · ring
      · rw [mapI_length]; exact hi
    · rw [List.getD_eq_default, List.getD_eq_default]
      · ring
      · omega
      · rw [mapI_length]; omega

/-- Witness for C10: the accumulator `[7, 8, 9]` fed `[1]` then `[3, 4]`:
the first call shrinks it to length 1, and slot 1 of the second call is
`2 * 4 = 8`, the previously accumulated `8` at that position being lost. -/
theorem integral_accum_length_w :
    ((integralStep (JSNum.arr [7, 8, 9]) 1 (JSNum.arr [1])).bind jsNumLen = some 1)
    ∧ (runIntegral (JSNum.arr [7, 8, 9]) [((1 : ℚ), JSNum.arr [1]), ((2 : ℚ), JSNum.arr [3, 4])]).map
        (fun r => slot r 1) = some 8 := by
  have h := integral_accum_length (JSNum.arr [7, 8, 9]) 1 [1]
  refine ⟨by simpa using h.1, ?_⟩
  have := h.2 2 [3, 4] 1 (by simp)
  rw [show ((2 : ℚ) * [(3 : ℚ), 4].getD 1 0) = 8 by norm_num [List.getD]] at this
  exact this

/-- C5: `feedback(x0, sf)` ignores its external input; the first call
returns `sf(dt, x0)`, the second call applies `sf` to the first result,
and in general each call applies `sf` to the previous call result (or
`x0` when there was none), stores the new result and returns it. -/
theorem feedback_threads_own_output {U V : Type} (x0 : V) (sf : SF V V) :
    (∀ (dt : ℚ) (u : U),
      (feedback x0 sf).trace [(dt, u)] = [(sf.step sf.s0 dt x0).1])
    ∧ (∀ (dt1 dt2 : ℚ) (u1 u2 : U),
        (feedback x0 sf).trace [(dt1, u1), (dt2, u2)]
          = [(sf.step sf.s0 dt1 x0).1,
             (sf.step (sf.step sf.s0 dt1 x0).2 dt2 (sf.step sf.s0 dt1 x0).1).1])
    ∧ ∀ (l : List (ℚ × U)) (dt : ℚ) (u : U),
        ((feedback x0 sf).state l).1 = ((feedback x0 sf).trace l).getLastD x0
        ∧ (feedback x0 sf).trace (l ++ [(dt, u)])
            = (feedback x0 sf).trace l
              ++ [(sf.step ((feedback x0 sf).state l).2 dt ((feedback x0 sf).state l).1).1] := by
  refine ⟨fun dt u => rfl, fun dt1 dt2 u1 u2 => rfl, ?_⟩
  intro l dt u
  constructor
  · show (runSt (feedback x0 sf).step (x0, sf.s0) l).1
        = (runTr (feedback x0 sf).step (x0, sf.s0) l).getLastD x0
    have hstep : (feedback x0 sf).step = fun (s : V × sf.σ) (dt : ℚ) (_ : U) =>
        ((sf.step s.2 dt s.1).1, ((sf.step s.2 dt s.1).1, (sf.step s.2 dt s.1).2)) := rfl
    rw [hstep]
    clear hstep
    generalize sf.s0 = s
    induction l generalizing x0 s with
    | nil => rfl
    | cons p l ih =>
      cases p with
      | mk dt' u' =>
        simp only [runSt, runTr, List.getLastD_cons]
        exact ih _ _
  · rw [SF.trace, SF.trace, runTr_append]
    rfl

/-- C1 counterexample: a two-step array input driven through `react` with
a root SF constantly returning the boolean `false` performs one
invocation, not two — lodash `forEach` exits early when its callback
returns `false`. -/
theorem react_array_early_exit_cex :
    (reactArr (constantSF (JSValue.bool false))
        [((1 : ℚ), JSValue.undef), ((1 : ℚ), JSValue.undef)]).length = 1
    ∧ ¬ (reactArr (constantSF (JSValue.bool false))
        [((1 : ℚ), JSValue.undef), ((1 : ℚ), JSValue.undef)]).length = 2 := by
  constructor <;> decide

/-- C1 amended: the array path performs one invocation per element in
order and consumes the entire sequence — exactly M invocations for M
steps — provided no invocation returns the boolean `false`; a step whose
result is strictly `false` stops the lodash `forEach` loop early (other
falsy results, such as `undefined` or `0`, do not). -/
theorem react_array_consumes_all {V : Type} (sf : SF V JSValue) (input : List (ℚ × V))
    (h : ∀ r ∈ sf.trace input, isFalse r = false) :
    reactArr sf input = sf.trace input
    ∧ (reactArr sf input).length = input.length := by
  have key : ∀ (s : sf.σ) (l : List (ℚ × V)),
      (∀ r ∈ runTr sf.step s l, isFalse r = false) →
      reactArrAux sf.step s l = runTr sf.step s l := by
    intro s l
    induction l generalizing s with
    | nil => intro _; rfl
    | cons p l ih =>
      cases p with
      | mk dt v =>
        intro hm
        have h1 : isFalse (sf.step s dt v).1 = false := by
          refine hm _ ?_
          simp [runTr]
        simp only [reactArrAux, runTr, h1, Bool.false_eq_true, if_false]
        refine congrArg _ (ih _ ?_)
        intro r hr
        refine hm r ?_
        simp [runTr, hr]
  have h1 := key sf.s0 input h
  refine ⟨h1, ?_⟩
  rw [reactArr, h1, runTr_length]

/-- Witness for C1 (amended): a root SF constantly returning `undefined`
— falsy but not `false` — consumes both steps of a two-step input. -/
theorem react_array_consumes_all_w :
    (∀ r ∈ (constantSF (V := JSValue) JSValue.undef).trace
        [((1 : ℚ), JSValue.undef), ((1 : ℚ), JSValue.undef)], isFalse r = false)
    ∧ (reactArr (constantSF (V := JSValue) JSValue.undef)
        [((1 : ℚ), JSValue.undef), ((1 : ℚ), JSValue.undef)]).length = 2 := by
  refine ⟨by decide, ?_⟩
  exact (react_array_consumes_all _ _ (by decide)).2

/-- C2: the source `react` accepts only `(sf, input)`; a third `output`
argument, as passed by `test.js`, is dropped by the Javascript call and
never invoked.  On the generator path the continuation flag is the root
SF result itself, so an SF whose results are always truthy — as in
`test.js`, where each result is a ball object — loops forever no matter
what the output callback would have returned, while under the claimed
semantics an `output` returning false stops the loop at once. -/
theorem react_has_no_output_callback :
    (∀ fuel : ℕ, reactGen (constantSF (JSValue.num 1)) defaultGen fuel = none)
    ∧ ∀ fuel : ℕ,
        reactGenSpec (constantSF (JSValue.num 1)) defaultGen (fun _ => false) (fuel + 1)
          = some 1 := by
  constructor
  · intro fuel
    show reactGenAux (constantSF (JSValue.num 1)).step defaultGen () 0 fuel = none
    generalize (0 : ℕ) = n
    induction fuel generalizing n with
    | zero => rfl
    | succ fuel ih =>
      simp only [reactGenAux, constantSF, defaultGen, jsTruthy]
      norm_num
      exact ih (n + 1)
  · intro fuel
    rfl

/-- C6: on the generator path, if the root SF first returns a falsy value
at its `k`-th invocation, the drive loop performs exactly `k` invocations
and stops (given fuel at least `k`); and the default generator, used when
no input is supplied, yields `dt = 0.1` with an `undefined` value on
every call. -/
theorem react_gen_stops_at_first_falsy :
    (∀ n : ℕ, defaultGen n = (1 / 10, JSValue.undef))
    ∧ ∀ (V : Type) (sf : SF V JSValue) (gen : ℕ → ℚ × V) (k fuel : ℕ),
        1 ≤ k → k ≤ fuel →
        (∀ j, j < k - 1 →
          jsTruthy ((sf.trace ((List.range k).map gen)).getD j JSValue.undef) = true) →
        jsTruthy ((sf.trace ((List.range k).map gen)).getD (k - 1) JSValue.undef) = false →
        reactGen sf gen fuel = some k := by
  refine ⟨fun n => rfl, ?_⟩
  intro V sf gen k fuel hk hfuel htru hfal
  have key : ∀ (k : ℕ) (s : sf.σ) (n fuel : ℕ), 1 ≤ k → k ≤ fuel →
      (∀ j, j < k - 1 →
        jsTruthy ((runTr sf.step s ((List.range k).map (fun i => gen (n + i)))).getD j
          JSValue.undef) = true) →
      jsTruthy ((runTr sf.step s ((List.range k).map (fun i => gen (n + i)))).getD (k - 1)
          JSValue.undef) = false →
      reactGenAux sf.step gen s n fuel = some (n + k) := by
    intro k
    induction k with
    | zero => intro s n fuel h1; omega
    | succ k ih =>
      intro s n fuel _ hfuel htru hfal
      obtain ⟨f, rfl⟩ : ∃ f, fuel = f + 1 := ⟨fuel - 1, by omega⟩
      have hdec : (List.range (k + 1)).map (fun i => gen (n + i))
          = gen n :: (List.range k).map (fun i => gen ((n + 1) + i)) := by
        have hfun : ((fun i => gen (n + i)) ∘ Nat.succ) = fun i => gen ((n + 1) + i) := by
          funext i
          simp only [Function.comp_apply]
          refine congrArg _ ?_
          omega
        rw [List.range_succ_eq_map]
        simp only [List.map_cons, List.map_map, Nat.add_zero, hfun]
      rw [hdec] at htru hfal
      cases k with
      | zero =>
        have h0 := hfal
        simp only [Nat.add_sub_cancel, List.range_zero, List.map_nil, runTr,
          List.getD_cons_zero] at h0
        simp only [reactGenAux]
        cases hp : gen n with
        | mk dt v =>
          rw [hp] at h0
          simp only [runTr] at h0
          rw [h0]
          simp
      | succ k =>
        have hhead := htru 0 (by omega)
        simp only [runTr, List.getD_cons_zero] at hhead
        simp only [reactGenAux]
        cases hp : gen n with
        | mk dt v =>
          rw [hp] at hhead
          simp only at hhead
          rw [hhead]
          simp only [if_true]
          have := ih ((sf.step s dt v).2) (n + 1) f (by omega) (by omega) ?_ ?_
          · rw [this]; refine congrArg _ ?_; omega
          · intro j hj
            have := htru (j + 1) (by omega)
            rw [hp] at this
            simpa [runTr] using this
          · have := hfal
            rw [hp] at this
            simp only [runTr, Nat.add_sub_cancel, List.getD_cons_succ] at this
            simpa using this
  have h0 : (List.range k).map (fun i => gen (0 + i)) = (List.range k).map gen := by
    simp
  have := key k sf.s0 0 fuel hk hfuel (by rw [h0]; exact htru) (by rw [h0]; exact hfal)
  simpa [reactGen] using this

/-- Witness for C6: a root SF returning true on its first two calls and
false on the third stops the default-generator loop after exactly three
invocations. -/
theorem react_gen_stops_at_first_falsy_w :
    (1 ≤ 3 ∧ 3 ≤ 5
      ∧ (∀ j, j < 3 - 1 →
          jsTruthy (((⟨ℕ, 0, fun s _ _ => (JSValue.bool (s < 2), s + 1)⟩ : SF JSValue JSValue).trace
            ((List.range 3).map defaultGen)).getD j JSValue.undef) = true)
      ∧ jsTruthy (((⟨ℕ, 0, fun s _ _ => (JSValue.bool (s < 2), s + 1)⟩ : SF JSValue JSValue).trace
            ((List.range 3).map defaultGen)).getD (3 - 1) JSValue.undef) = false)
    ∧ reactGen (⟨ℕ, 0, fun s _ _ => (JSValue.bool (s < 2), s + 1)⟩ : SF JSValue JSValue)
        defaultGen 5 = some 3 := by
  refine ⟨⟨by norm_num, by norm_num, by decide, by decide⟩, ?_⟩
  exact react_gen_stops_at_first_falsy.2 JSValue _ defaultGen 3 5
    (by norm_num) (by norm_num) (by decide) (by decide)

/-- C9: if, while the switch is open, the predicate raises (after the
inner SF returned normally), or the predicate holds and the constructor
raises, then the call propagates the error and the switch cell is left
unchanged: still open, with no replacement stored. -/
theorem dSwitch_error_keeps_open {V σ₁ τ ε : Type}
    (sfStep : σ₁ → ℚ → V → Except ε V × σ₁) (pred : V → Except ε Bool)
    (mkInit : V → Except ε τ) (mkStep : τ → ℚ → V → Except ε V × τ)
    (s1 : σ₁) (dt : ℚ) (v : V) (y : V) (s1' : σ₁) (e : ε)
    (hsf : sfStep s1 dt v = (Except.ok y, s1')) :
    (pred y = Except.error e →
      dSwitchStepE sfStep pred mkInit mkStep (s1, none) dt v
        = (Except.error e, (s1', none)))
    ∧ (pred y = Except.ok true → mkInit y = Except.error e →
      dSwitchStepE sfStep pred mkInit mkStep (s1, none) dt v
        = (Except.error e, (s1', none))) := by
  constructor
  · intro hp
    simp [dSwitchStepE, hsf, hp]
  · intro hp hm
    simp [dSwitchStepE, hsf, hp, hm]

/-- Witness for C9: an identity-like inner SF with, first, a predicate
raising the error `7`, and second, a succeeding predicate with a raising
constructor: both calls return the error and leave the switch cell open
and empty. -/
theorem dSwitch_error_keeps_open_w :
    (dSwitchStepE (fun (s : Unit) (_ : ℚ) (v : ℤ) => (Except.ok v, s))
        (fun _ => Except.error (7 : ℕ)) (fun v => Except.ok (some v))
        (fun t _ _ => (Except.ok (0 : ℤ), t)) ((), none) 1 3
      = (Except.error 7, ((), none)))
    ∧ (dSwitchStepE (fun (s : Unit) (_ : ℚ) (v : ℤ) => (Except.ok v, s))
        (fun _ => Except.ok true) (fun _ => Except.error (7 : ℕ))
        (fun (t : Option ℤ) _ _ => (Except.ok (0 : ℤ), t)) ((), none) 1 3
      = (Except.error 7, ((), none))) := by
  constructor
  · exact (dSwitch_error_keeps_open _ _ _ _ () 1 3 3 () 7 rfl).1 rfl
  · exact (dSwitch_error_keeps_open _ _ _ _ () 1 3 3 () 7 rfl).2 rfl rfl

/-! ### fanout lemmas -/

theorem parSF_trace_nil {V W : Type} (l : List (ℚ × V)) :
    (parSF ([] : List (SF V W))).trace l = List.replicate l.length [] := by
  show runTr (parSF ([] : List (SF V W))).step () l = List.replicate l.length []
  induction l with
  | nil => rfl
  | cons p l ih =>
    cases p
    show ([] : List W) :: runTr (parSF ([] : List (SF V W))).step () l
        = List.replicate (l.length + 1) ([] : List W)
    rw [List.replicate_succ, ih]

theorem parSF_trace_cons {V W : Type} (m : SF V W) (sfs : List (SF V W))
    (l : List (ℚ × V)) :
    (parSF (m :: sfs)).trace l
      = List.zipWith List.cons (m.trace l) ((parSF sfs).trace l) := by
  show runTr (parSF (m :: sfs)).step (m.s0, (parSF sfs).s0) l
      = List.zipWith List.cons (runTr m.step m.s0 l) (runTr (parSF sfs).step (parSF sfs).s0 l)
  generalize m.s0 = s1
  generalize (parSF sfs).s0 = s2
  induction l generalizing s1 s2 with
  | nil => rfl
  | cons p l ih =>
    cases p with
    | mk dt v =>
      simp only [runTr, parSF, List.zipWith_cons_cons]
      exact congrArg _ (ih _ _)

theorem fanout_trace_map {V W X : Type} (f : List W → X) (sfs : List (SF V W))
    (l : List (ℚ × V)) :
    (fanout f sfs).trace l = ((parSF sfs).trace l).map f := by
  show runTr (fanout f sfs).step (parSF sfs).s0 l
      = (runTr (parSF sfs).step (parSF sfs).s0 l).map f
  generalize (parSF sfs).s0 = s
  induction l generalizing s with
  | nil => rfl
  | cons p l ih =>
    cases p with
    | mk dt v =>
      simp only [runTr, fanout, List.map_cons]
      exact congrArg _ (ih _)

theorem map_length_zipWith_cons {W : Type} :
    ∀ (t : List W) (T : List (List W)) (k : ℕ),
      T.map List.length = List.replicate t.length k →
      (List.zipWith List.cons t T).map List.length
        = List.replicate t.length (k + 1) := by
  intro t
  induction t with
  | nil => intro T k _; rfl
  | cons x xs ih =>
    intro T k hT
    cases T with
    | nil => simp [List.replicate_succ] at hT
    | cons u T =>
      simp only [List.map_cons, List.length_cons, List.replicate_succ, List.cons_eq_cons] at hT
      simp only [List.zipWith_cons_cons, List.map_cons, List.length_cons,
        List.replicate_succ, List.cons_eq_cons]
      exact ⟨by rw [hT.1], ih T k hT.2⟩

/-- C7: one run of `fanout(f, sf1, ..., sfN)` produces, at every step, the
result of `f` applied to the list of the N outputs the child SFs produce
at that step — each child stepped once per step with the same input, its
state evolving exactly as in an independent run — and the argument list
handed to `f` always has exactly N entries, in the order of the child
SFs. -/
theorem fanout_applies_combiner {V W X : Type} (f : List W → X)
    (sfs : List (SF V W)) (l : List (ℚ × V)) :
    (fanout f sfs).trace l
      = ((sfs.map (fun m => m.trace l)).foldr (List.zipWith List.cons)
          (List.replicate l.length [])).map f
    ∧ ((sfs.map (fun m => m.trace l)).foldr (List.zipWith List.cons)
          (List.replicate l.length [])).map List.length
        = List.replicate l.length sfs.length := by
  have hpar : ∀ sfs : List (SF V W),
      (parSF sfs).trace l
        = (sfs.map (fun m => m.trace l)).foldr (List.zipWith List.cons)
            (List.replicate l.length []) := by
    intro sfs
    induction sfs with
    | nil => simpa using parSF_trace_nil (W := W) l
    | cons m sfs ih => rw [List.map_cons, List.foldr_cons, ← ih, parSF_trace_cons]
  constructor
  · rw [fanout_trace_map, hpar]
  · rw [← hpar]
    induction sfs with
    | nil =>
      rw [parSF_trace_nil]
      simp [List.map_replicate]
    | cons m sfs ih =>
      rw [parSF_trace_cons]
      have hlen : (m.trace l).length = l.length := runTr_length _ _ _
      have := map_length_zipWith_cons (m.trace l) ((parSF sfs).trace l) sfs.length
        (by rw [hlen]; exact ih)
      rw [hlen] at this
      simpa using this

/-- C8: composition is associative — `compose(compose(a,b),c)` and
`compose(a,compose(b,c))` produce the same output trace on every input
list, with the constituent states of `a`, `b` and `c` evolving
identically — and `compose(lift(id))` is the identity SF, returning its
input unchanged at every step. -/
theorem compose_assoc_and_id {V : Type} (a b c : SF V V) (l : List (ℚ × V)) :
    (composeN [composeN [a, b], c]).trace l = (composeN [a, composeN [b, c]]).trace l
    ∧ ((composeN [composeN [a, b], c]).state l).1.1
        = ((composeN [a, composeN [b, c]]).state l).1
    ∧ ((composeN [composeN [a, b], c]).state l).1.2.1
        = ((composeN [a, composeN [b, c]]).state l).2.1.1
    ∧ ((composeN [composeN [a, b], c]).state l).2.1
        = ((composeN [a, composeN [b, c]]).state l).2.1.2.1
    ∧ (composeN [liftSF (fun v : V => v)]).trace l = l.map Prod.snd := by
  have key : ∀ (l : List (ℚ × V)) (sa : a.σ) (sb : b.σ) (sc : c.σ),
      runTr (composeN [composeN [a, b], c]).step ((sa, (sb, ())), (sc, ())) l
        = runTr (composeN [a, composeN [b, c]]).step (sa, ((sb, (sc, ())), ())) l
      ∧ (runSt (composeN [composeN [a, b], c]).step ((sa, (sb, ())), (sc, ())) l).1.1
        = (runSt (composeN [a, composeN [b, c]]).step (sa, ((sb, (sc, ())), ())) l).1
      ∧ (runSt (composeN [composeN [a, b], c]).step ((sa, (sb, ())), (sc, ())) l).1.2.1
        = (runSt (composeN [a, composeN [b, c]]).step (sa, ((sb, (sc, ())), ())) l).2.1.1
      ∧ (runSt (composeN [composeN [a, b], c]).step ((sa, (sb, ())), (sc, ())) l).2.1
        = (runSt (composeN [a, composeN [b, c]]).step (sa, ((sb, (sc, ())), ())) l).2.1.2.1 := by
    intro l
    induction l with
    | nil => intro sa sb sc; exact ⟨rfl, rfl, rfl, rfl⟩
    | cons p l ih =>
      intro sa sb sc
      cases p with
      | mk dt v =>
        simp only [runTr, runSt, composeN, compose2, idSF]
        obtain ⟨h1, h2, h3, h4⟩ :=
          ih (a.step sa dt v).2 (b.step sb dt (a.step sa dt v).1).2
            (c.step sc dt (b.step sb dt (a.step sa dt v).1).1).2
        exact ⟨congrArg _ h1, h2, h3, h4⟩
  have hid : ∀ (l : List (ℚ × V)),
      (composeN [liftSF (fun v : V => v)]).trace l = l.map Prod.snd := by
    intro l
    show runTr (composeN [liftSF (fun v : V => v)]).step ((), ()) l = l.map Prod.snd
    induction l with
    | nil => rfl
    | cons p l ih =>
      cases p
      simp only [runTr, composeN, compose2, idSF, liftSF, List.map_cons]
      exact congrArg _ ih
  obtain ⟨h1, h2, h3, h4⟩ := key l a.s0 b.s0 c.s0
  exact ⟨h1, h2, h3, h4, hid l⟩

theorem dSwitch_closed_run {V τ : Type} (sf : SF V V) (pred : V → Bool)
    (mkInit : V → τ) (mkStep : τ → ℚ → V → V × τ) :
    ∀ (l : List (ℚ × V)) (s1 : sf.σ) (t : τ),
      runTr (dSwitch sf pred mkInit mkStep).step (s1, some t) l = runTr mkStep t l
      ∧ runSt (dSwitch sf pred mkInit mkStep).step (s1, some t) l
        = (s1, some (runSt mkStep t l)) := by
  intro l
  induction l with
  | nil => intro s1 t; exact ⟨rfl, rfl⟩
  | cons p l ih =>
    intro s1 t
    cases p with
    | mk dt v =>
      simp only [runTr, runSt, dSwitch]
      exact ⟨congrArg _ (ih s1 (mkStep t dt v).2).1, (ih s1 (mkStep t dt v).2).2⟩

/-- C3: on the first step at which the predicate holds for the output of
the original SF — all earlier outputs failing it — the step output still
comes from the original SF (the trace agrees with the original SF up to
and including the triggering step); immediately after that step the
switch cell holds exactly the replacement built by `makeSF` from the
triggering value, next to the stepped original SF state; and the whole
remaining trace is the run of that replacement machine alone, with `sf`,
`pred` and `makeSF` no longer consulted: the transition is one-way and
permanent. -/
theorem dSwitch_one_way_transition {V τ : Type} [Inhabited V] (sf : SF V V)
    (pred : V → Bool) (mkInit : V → τ) (mkStep : τ → ℚ → V → V × τ)
    (l : List (ℚ × V)) (k : ℕ) (hk : k < l.length)
    (hbefore : ∀ j, j < k → pred ((sf.trace l).getD j default) = false)
    (htrig : pred ((sf.trace l).getD k default) = true) :
    ((dSwitch sf pred mkInit mkStep).trace l).take (k + 1)
        = (sf.trace l).take (k + 1)
    ∧ (dSwitch sf pred mkInit mkStep).state (l.take (k + 1))
        = (sf.state (l.take (k + 1)), some (mkInit ((sf.trace l).getD k default)))
    ∧ ((dSwitch sf pred mkInit mkStep).trace l).drop (k + 1)
        = runTr mkStep (mkInit ((sf.trace l).getD k default)) (l.drop (k + 1)) := by
  have key : ∀ (k : ℕ) (l : List (ℚ × V)) (s1 : sf.σ), k < l.length →
      (∀ j, j < k → pred ((runTr sf.step s1 l).getD j default) = false) →
      pred ((runTr sf.step s1 l).getD k default) = true →
      (runTr (dSwitch sf pred mkInit mkStep).step (s1, none) l).take (k + 1)
          = (runTr sf.step s1 l).take (k + 1)
      ∧ runSt (dSwitch sf pred mkInit mkStep).step (s1, none) (l.take (k + 1))
          = (runSt sf.step s1 (l.take (k + 1)),
             some (mkInit ((runTr sf.step s1 l).getD k default)))
      ∧ (runTr (dSwitch sf pred mkInit mkStep).step (s1, none) l).drop (k + 1)
          = runTr mkStep (mkInit ((runTr sf.step s1 l).getD k default))
              (l.drop (k + 1)) := by
    intro k
    induction k with
    | zero =>
      intro l s1 hlen hb ht
      cases l with
      | nil => simp at hlen
      | cons p l2 =>
        cases p with
        | mk dt v =>
          simp only [runTr, List.getD_cons_zero] at ht
          simp only [runTr, runSt, dSwitch, List.getD_cons_zero, List.take_succ_cons,
            List.take_zero, List.drop_succ_cons, List.drop_zero, ht, if_true]
          refine ⟨by trivial, by trivial, ?_⟩
          exact (dSwitch_closed_run sf pred mkInit mkStep l2 _ _).1
    | succ k ih =>
      intro l s1 hlen hb ht
      cases l with
      | nil => simp at hlen
      | cons p l2 =>
        cases p with
        | mk dt v =>
          have h0 : pred (sf.step s1 dt v).1 = false := by
            have := hb 0 (by omega)
            simpa [runTr] using this
          have hlen2 : k < l2.length := by simpa using hlen
          have hb2 : ∀ j, j < k →
              pred ((runTr sf.step (sf.step s1 dt v).2 l2).getD j default) = false := by
            intro j hj
            have := hb (j + 1) (by omega)
            simpa [runTr] using this
          have ht2 : pred ((runTr sf.step (sf.step s1 dt v).2 l2).getD k default)
              = true := by
            simpa [runTr] using ht
          obtain ⟨ih1, ih2, ih3⟩ := ih l2 (sf.step s1 dt v).2 hlen2 hb2 ht2
          simp only [runTr, runSt, dSwitch, List.getD_cons_succ, List.take_succ_cons,
            List.drop_succ_cons, h0, Bool.false_eq_true, if_false]
          exact ⟨congrArg _ ih1, ih2, ih3⟩
  exact key k l sf.s0 hk hbefore htrig

/-- Witness for C3: the stateless SF adding one to its input, the
predicate testing for a value of at least two, triggering on the second
of four steps; the first two outputs come from the original SF, the
switch then stores the replacement seeded with the triggering value 6,
and the last two outputs are the doubling replacement machine run
alone. -/
theorem dSwitch_one_way_transition_w :
    (1 < 4
      ∧ (∀ j, j < 1 →
          ((fun v : ℤ => decide (2 ≤ v))
            (((liftSF (fun v : ℤ => v + 1)).trace
              [((1 : ℚ), 0), (1, 5), (1, 0), (1, 0)]).getD j default)) = false)
      ∧ ((fun v : ℤ => decide (2 ≤ v))
          (((liftSF (fun v : ℤ => v + 1)).trace
            [((1 : ℚ), 0), (1, 5), (1, 0), (1, 0)]).getD 1 default)) = true)
    ∧ ((dSwitch (liftSF (fun v : ℤ => v + 1)) (fun v : ℤ => decide (2 ≤ v))
          (fun v : ℤ => v) (fun t _ _ => (t * 2, t * 2))).trace
        [((1 : ℚ), 0), (1, 5), (1, 0), (1, 0)]).take 2 = [1, 6]
    ∧ (dSwitch (liftSF (fun v : ℤ => v + 1)) (fun v : ℤ => decide (2 ≤ v))
          (fun v : ℤ => v) (fun t _ _ => (t * 2, t * 2))).state
        [((1 : ℚ), 0), (1, 5)] = ((), some 6)
    ∧ ((dSwitch (liftSF (fun v : ℤ => v + 1)) (fun v : ℤ => decide (2 ≤ v))
          (fun v : ℤ => v) (fun t _ _ => (t * 2, t * 2))).trace
        [((1 : ℚ), 0), (1, 5), (1, 0), (1, 0)]).drop 2 = [12, 24] := by
  have h := dSwitch_one_way_transition (liftSF (fun v : ℤ => v + 1))
    (fun v : ℤ => decide (2 ≤ v)) (fun v : ℤ => v)
    (fun t _ _ => (t * 2, t * 2)) [((1 : ℚ), 0), (1, 5), (1, 0), (1, 0)] 1
    (by norm_num) (by decide) (by decide)
  refine ⟨⟨by norm_num, by decide, by decide⟩, ?_, ?_, ?_⟩
  · have := h.1
    rw [this]
    decide
  · have := h.2.1
    rw [show ([((1 : ℚ), (0 : ℤ)), (1, 5), (1, 0), (1, 0)].take 2)
        = [((1 : ℚ), (0 : ℤ)), (1, 5)] by decide] at this
    rw [this]
    rfl
  · have := h.2.2
    rw [this]
    decide

end Rpjs
